import Mathlib

/-!
Verification of the goods-duty bees-algorithm optimizer.

The development shallowly embeds the Python sources (model.py and
bees_algorithm.py) over exact rationals: numpy arrays of shape (p,) and
(p, m) become functions out of Fin p and Fin p → Fin m, floating point
numbers become ℚ, and the two raise statements of the generator become an
Except error type.  Randomness is made explicit: every random draw of the
source (the initial random matrix, the mutation choices, the mutated
neighbour solutions) is a parameter of the embedded function, so that a
universally quantified theorem covers every random outcome.
-/

namespace GoodsDuty

/-- Problem settings (model.py, class Settings).  The dimensions
crossings_number = n, goods_types_number = m and trucks_number = p are
carried as type indices; the numeric fields follow the source. -/
structure Settings (n m p : ℕ) where
  truckCapacity : ℚ
  fuelCost : ℚ
  duties : Fin n → Fin m → ℚ
  distances : Fin n → ℚ
  goodsAmounts : Fin m → ℚ

/-- Candidate solution (model.py, class Solution): a crossing for each truck
and a p times m matrix of goods amounts. -/
structure Solution (n m p : ℕ) where
  trucksAllocation : Fin p → Fin n
  goodsAllocation : Fin p → Fin m → ℚ

/-- Row sum of a goods allocation: allocation.sum(axis=1) at index i. -/
def rowSum {p m : ℕ} (g : Fin p → Fin m → ℚ) (i : Fin p) : ℚ := ∑ j, g i j

/-- Column sum of a goods allocation: allocation.sum(axis=0) at index j. -/
def colSum {p m : ℕ} (g : Fin p → Fin m → ℚ) (j : Fin m) : ℚ := ∑ i, g i j

/-- Elementwise tolerance of np.allclose with its default parameters
rtol = 1e-5 and atol = 1e-8: the comparison made by validate_goods_total. -/
def ratClose (x y : ℚ) : Prop := |x - y| ≤ 1 / 100000000 + (1 / 100000) * |y|

instance (x y : ℚ) : Decidable (ratClose x y) := by
  unfold ratClose; infer_instance

/-- Restriction (1) of model.py, validate_trucks_capacity: every truck
carries at most truck_capacity in total. -/
def validate_trucks_capacity {n m p : ℕ} (sol : Solution n m p)
    (st : Settings n m p) : Prop :=
  ∀ i, rowSum sol.goodsAllocation i ≤ st.truckCapacity

instance {n m p : ℕ} (sol : Solution n m p) (st : Settings n m p) :
    Decidable (validate_trucks_capacity sol st) := by
  unfold validate_trucks_capacity; infer_instance

/-- Restriction (2) of model.py, validate_goods_total: every column sum of
the allocation matches the goods amount, compared with np.allclose. -/
def validate_goods_total {n m p : ℕ} (sol : Solution n m p)
    (st : Settings n m p) : Prop :=
  ∀ j, ratClose (colSum sol.goodsAllocation j) (st.goodsAmounts j)

instance {n m p : ℕ} (sol : Solution n m p) (st : Settings n m p) :
    Decidable (validate_goods_total sol st) := by
  unfold validate_goods_total; infer_instance

/-- model.py validate_solution: the conjunction of restrictions (1) and (2). -/
def validate_solution {n m p : ℕ} (sol : Solution n m p)
    (st : Settings n m p) : Prop :=
  validate_trucks_capacity sol st ∧ validate_goods_total sol st

instance {n m p : ℕ} (sol : Solution n m p) (st : Settings n m p) :
    Decidable (validate_solution sol st) := by
  unfold validate_solution; infer_instance

/-- model.py calculate_cost: duties cost plus fuel cost. -/
def calculate_cost {n m p : ℕ} (sol : Solution n m p) (st : Settings n m p) : ℚ :=
  (∑ i, ∑ j, sol.goodsAllocation i j * st.duties (sol.trucksAllocation i) j)
    + ∑ i, st.fuelCost * st.distances (sol.trucksAllocation i)

/-- C9: for every solution, every settings, and every permutation of the
truck indices, applying the permutation identically to trucks_allocation and
to the rows of goods_allocation leaves calculate_cost unchanged. -/
theorem calculate_cost_perm_invariant {n m p : ℕ} (st : Settings n m p)
    (sol : Solution n m p) (σ : Equiv.Perm (Fin p)) :
    calculate_cost
      ⟨fun i => sol.trucksAllocation (σ i), fun i => sol.goodsAllocation (σ i)⟩
      st
      = calculate_cost sol st := by
  unfold calculate_cost
  exact congrArg₂ (fun a b => a + b)
    (Equiv.sum_comp σ fun i =>
      ∑ j, sol.goodsAllocation i j * st.duties (sol.trucksAllocation i) j)
    (Equiv.sum_comp σ fun i => st.fuelCost * st.distances (sol.trucksAllocation i))

/-- bees_algorithm.py, IterationsBeesSolver._stop_condition: returns
i > self.iterations. -/
def iterations_stop_condition (iterations i : ℕ) (lastCost newCost : ℚ) : Bool :=
  decide (iterations < i)

/-- bees_algorithm.py, DeltaBeesSolver._stop_condition: returns
last_cost - new_cost < self.delta. -/
def delta_stop_condition (delta : ℚ) (i : ℕ) (lastCost newCost : ℚ) : Bool :=
  decide (lastCost - newCost < delta)

/-- Number of body executions of the while loop of find_best_solution, for a
stop predicate that depends only on the loop counter: the counter starts at
0 and the predicate is checked before each body execution. -/
def loop_body_runs (stop : ℕ → Bool) : ℕ → ℕ → ℕ
  | 0, _ => 0
  | fuel + 1, i => if stop i then 0 else loop_body_runs stop fuel (i + 1) + 1

lemma loop_body_runs_iterations (N : ℕ) (lastCost newCost : ℚ) :
    ∀ fuel s, s ≤ N + 1 → N + 2 - s ≤ fuel →
      loop_body_runs (fun k => iterations_stop_condition N k lastCost newCost)
        fuel s = N + 1 - s := by
  intro fuel
  induction fuel with
  | zero => intro s hs hf; omega
  | succ f ih =>
      intro s hs hf
      by_cases h : N < s
      · have hstop : iterations_stop_condition N s lastCost newCost = true := by
          simp [iterations_stop_condition, h]
        simp [loop_body_runs, hstop]
        omega
      · have hstop : iterations_stop_condition N s lastCost newCost = false := by
          simp [iterations_stop_condition, h]
        simp [loop_body_runs, hstop]
        rw [ih (s + 1) (by omega) (by omega)]
        omega

/-- C8 counterexample: at iterations = 5 and generation count 5 the
iteration-bound predicate of the source returns false although the claim
says it must be true exactly when the generation count reaches N. -/
theorem iterations_stop_condition_cex :
    ¬ ((iterations_stop_condition 5 5 0 0 = true) ↔ 5 ≤ 5) := by decide

/-- C8 (amended): the iteration-bound predicate returns true exactly when
generation_count > N, so the loop body runs exactly N + 1 times; the
convergence-delta predicate returns true exactly when
previous_best_cost - current_best_cost < delta. -/
theorem stop_conditions_spec (N i : ℕ) (lastCost newCost delta : ℚ) :
    (iterations_stop_condition N i lastCost newCost = true ↔ N < i)
    ∧ (delta_stop_condition delta i lastCost newCost = true ↔
        lastCost - newCost < delta)
    ∧ loop_body_runs (fun k => iterations_stop_condition N k lastCost newCost)
        (N + 2) 0 = N + 1 := by
  refine ⟨by simp [iterations_stop_condition], by simp [delta_stop_condition], ?_⟩
  have := loop_body_runs_iterations N lastCost newCost (N + 2) 0 (by omega) (by omega)
  simpa using this

/-- Pointwise update of one entry of an allocation matrix, the effect of a
numpy assignment allocation[i, j] = x. -/
def updEntry {p m : ℕ} (A : Fin p → Fin m → ℚ) (i : Fin p) (j : Fin m)
    (x : ℚ) : Fin p → Fin m → ℚ :=
  fun i2 => if i2 = i then Function.update (A i) j x else A i2

lemma updEntry_apply {p m : ℕ} (A : Fin p → Fin m → ℚ) (i : Fin p) (j : Fin m)
    (x : ℚ) (i2 : Fin p) (j2 : Fin m) :
    updEntry A i j x i2 j2 = if i2 = i ∧ j2 = j then x else A i2 j2 := by
  by_cases h1 : i2 = i <;> by_cases h2 : j2 = j <;>
    simp [updEntry, Function.update_apply, h1, h2]

lemma sum_update {q : ℕ} (f : Fin q → ℚ) (a : Fin q) (x : ℚ) :
    ∑ k, Function.update f a x k = (∑ k, f k) - f a + x := by
  rw [Finset.sum_update_of_mem (Finset.mem_univ a),
    Finset.sum_eq_sum_diff_singleton_add (Finset.mem_univ a) f]
  ring

lemma rowSum_updEntry_self {p m : ℕ} (A : Fin p → Fin m → ℚ) (i : Fin p)
    (j : Fin m) (x : ℚ) :
    rowSum (updEntry A i j x) i = rowSum A i - A i j + x := by
  unfold rowSum
  have h : ∀ j2, updEntry A i j x i j2 = Function.update (A i) j x j2 := by
    intro j2; simp [updEntry]
  simp only [h]
  exact sum_update (A i) j x

lemma rowSum_updEntry_ne {p m : ℕ} (A : Fin p → Fin m → ℚ) (i : Fin p)
    (j : Fin m) (x : ℚ) (i2 : Fin p) (h : i2 ≠ i) :
    rowSum (updEntry A i j x) i2 = rowSum A i2 := by
  unfold rowSum
  refine Finset.sum_congr rfl fun j2 _ => ?_
  simp [updEntry, h]

lemma colSum_updEntry_self {p m : ℕ} (A : Fin p → Fin m → ℚ) (i : Fin p)
    (j : Fin m) (x : ℚ) :
    colSum (updEntry A i j x) j = colSum A j - A i j + x := by
  unfold colSum
  have h : ∀ i2, updEntry A i j x i2 j = Function.update (fun i3 => A i3 j) i x i2 := by
    intro i2
    by_cases h1 : i2 = i <;> simp [updEntry, Function.update_apply, h1]
  simp only [h]
  exact sum_update (fun i3 => A i3 j) i x

lemma colSum_updEntry_ne {p m : ℕ} (A : Fin p → Fin m → ℚ) (i : Fin p)
    (j : Fin m) (x : ℚ) (j2 : Fin m) (h : j2 ≠ j) :
    colSum (updEntry A i j x) j2 = colSum A j2 := by
  unfold colSum
  refine Finset.sum_congr rfl fun i2 _ => ?_
  by_cases h1 : i2 = i <;> simp [updEntry, Function.update_apply, h1, h]

/-- Free space of each truck as computed by _mutate_goods_allocation:
truck_capacity minus the row sum. -/
def spaces {n m p : ℕ} (st : Settings n m p) (g : Fin p → Fin m → ℚ)
    (i : Fin p) : ℚ :=
  st.truckCapacity - rowSum g i

/-- Support of the Python draw random.randint(1, hi): the integers z with
1 ≤ z and z ≤ hi.  This is the distribution used by _mutate_goods_allocation
for the moved amount; the draw raises when the interval is empty, so a
completed mutation always took its amount from this support. -/
def randintSupport (hi : ℚ) (x : ℚ) : Prop :=
  ∃ z : ℤ, x = (z : ℚ) ∧ 1 ≤ z ∧ (z : ℚ) ≤ hi

/-- bees_algorithm.py _mutate_goods_allocation, with every random draw made
explicit: goods type k, receiving truck tTo, donating truck tFrom and the
moved amount.  The two numpy in-place updates are applied sequentially. -/
def mutate_goods_allocation {n m p : ℕ} (st : Settings n m p)
    (g : Fin p → Fin m → ℚ) (k : Fin m) (tTo tFrom : Fin p) (amount : ℚ) :
    Fin p → Fin m → ℚ :=
  let g1 := updEntry g tFrom k (g tFrom k - amount)
  updEntry g1 tTo k (g1 tTo k + amount)

lemma mutate_goods_allocation_eq {n m p : ℕ} (st : Settings n m p)
    (g : Fin p → Fin m → ℚ) (k : Fin m) (tTo tFrom : Fin p) (amount : ℚ) :
    mutate_goods_allocation st g k tTo tFrom amount
      = updEntry (updEntry g tFrom k (g tFrom k - amount)) tTo k
          (updEntry g tFrom k (g tFrom k - amount) tTo k + amount) := rfl

/-- C2: on any solution satisfying I1 and I2, for every random outcome that
lets the mutation complete (a receiver with positive free space, a donor
with a positive amount of the chosen goods type, and an amount from the
randint support bounded by min(donor amount, receiver free space)),
_mutate_goods_allocation preserves both invariants: every column sum is
unchanged (I2), every row sum stays at most truck_capacity (I1), and the
donor entry stays nonnegative. -/
theorem mutate_goods_allocation_preserves {n m p : ℕ} (st : Settings n m p)
    (g : Fin p → Fin m → ℚ) (k : Fin m) (tTo tFrom : Fin p) (amount : ℚ)
    (hI1 : ∀ i, rowSum g i ≤ st.truckCapacity)
    (hI2 : ∀ j, colSum g j = st.goodsAmounts j)
    (hTo : 0 < spaces st g tTo)
    (hFrom : 0 < g tFrom k)
    (hAmt : randintSupport (min (g tFrom k) (spaces st g tTo)) amount) :
    (∀ j, colSum (mutate_goods_allocation st g k tTo tFrom amount) j
        = st.goodsAmounts j)
    ∧ (∀ i, rowSum (mutate_goods_allocation st g k tTo tFrom amount) i
        ≤ st.truckCapacity)
    ∧ 0 ≤ mutate_goods_allocation st g k tTo tFrom amount tFrom k := by
  obtain ⟨z, hzx, hz1, hzhi⟩ := hAmt
  have hpos : (0 : ℚ) < amount := by
    rw [hzx]
    exact_mod_cast lt_of_lt_of_le Int.zero_lt_one hz1
  have hle : amount ≤ min (g tFrom k) (spaces st g tTo) := by rw [hzx]; exact hzhi
  have hleFrom : amount ≤ g tFrom k := le_trans hle (min_le_left _ _)
  have hleTo : amount ≤ spaces st g tTo := le_trans hle (min_le_right _ _)
  rw [mutate_goods_allocation_eq]
  set g1 := updEntry g tFrom k (g tFrom k - amount) with hg1
  set g2 := updEntry g1 tTo k (g1 tTo k + amount) with hg2
  have hrow1self : rowSum g1 tFrom = rowSum g tFrom - amount := by
    rw [hg1, rowSum_updEntry_self]; ring
  have hrow1ne : ∀ i, i ≠ tFrom → rowSum g1 i = rowSum g i := by
    intro i hi; rw [hg1, rowSum_updEntry_ne _ _ _ _ _ hi]
  have hrow2self : rowSum g2 tTo = rowSum g1 tTo + amount := by
    rw [hg2, rowSum_updEntry_self]; ring
  have hrow2ne : ∀ i, i ≠ tTo → rowSum g2 i = rowSum g1 i := by
    intro i hi; rw [hg2, rowSum_updEntry_ne _ _ _ _ _ hi]
  refine ⟨?_, ?_, ?_⟩
  · intro j
    by_cases hj : j = k
    · subst hj
      have h1 : colSum g1 j = colSum g j - amount := by
        rw [hg1, colSum_updEntry_self]; ring
      have h2 : colSum g2 j = colSum g1 j + amount := by
        rw [hg2, colSum_updEntry_self]; ring
      rw [h2, h1, ← hI2 j]; ring
    · rw [← hI2 j, hg2, colSum_updEntry_ne _ _ _ _ _ hj, hg1,
        colSum_updEntry_ne _ _ _ _ _ hj]
  · intro i
    by_cases hiTo : i = tTo
    · subst hiTo
      by_cases hiFrom : i = tFrom
      · subst hiFrom
        rw [hrow2self, hrow1self]
        have := hI1 i
        linarith
      · rw [hrow2self, hrow1ne i hiFrom]
        have := hleTo
        unfold spaces at this
        linarith
    · rw [hrow2ne i hiTo]
      by_cases hiFrom : i = tFrom
      · subst hiFrom
        rw [hrow1self]
        have := hI1 i
        linarith
      · rw [hrow1ne i hiFrom]
        exact hI1 i
  · by_cases hft : tFrom = tTo
    · have h2 : g2 tFrom k = g1 tTo k + amount := by
        rw [hg2, updEntry_apply]
        simp [hft]
      have h1 : g1 tTo k = g tFrom k - amount := by
        rw [hg1, updEntry_apply]
        simp [hft.symm]
      rw [h2, h1]
      linarith
    · have h2 : g2 tFrom k = g1 tFrom k := by
        rw [hg2, updEntry_apply, if_neg]
        intro hc
        exact hft hc.1
      rw [h2, hg1, updEntry_apply]
      simp
      linarith

/-- Concrete two-truck, one-goods-type settings used by witnesses. -/
def settingsW2 : Settings 1 1 2 :=
  ⟨10, 0, fun _ _ => 0, fun _ => 0, fun _ => 8⟩

/-- Concrete goods allocation used by witnesses: truck 0 carries 6, truck 1
carries 2. -/
def gW2 : Fin 2 → Fin 1 → ℚ := fun i _ => if i = 0 then 6 else 2

/-- Witness for C2: the hypotheses of mutate_goods_allocation_preserves hold
at a concrete input and the theorem applies there. -/
theorem mutate_goods_allocation_preserves_witness :
    ((∀ i, rowSum gW2 i ≤ settingsW2.truckCapacity)
      ∧ (∀ j, colSum gW2 j = settingsW2.goodsAmounts j)
      ∧ 0 < spaces settingsW2 gW2 1
      ∧ 0 < gW2 0 0)
    ∧ (∀ j, colSum (mutate_goods_allocation settingsW2 gW2 0 1 0 2) j
        = settingsW2.goodsAmounts j) := by
  have hI1 : ∀ i, rowSum gW2 i ≤ settingsW2.truckCapacity := by
    intro i
    fin_cases i <;> norm_num [rowSum, gW2, settingsW2, Fin.sum_univ_one]
  have hI2 : ∀ j, colSum gW2 j = settingsW2.goodsAmounts j := by
    intro j
    fin_cases j <;> norm_num [colSum, gW2, settingsW2, Fin.sum_univ_two]
  have hTo : 0 < spaces settingsW2 gW2 1 := by
    norm_num [spaces, rowSum, gW2, settingsW2, Fin.sum_univ_one]
  have hFrom : (0 : ℚ) < gW2 0 0 := by norm_num [gW2]
  have hsup : randintSupport (min (gW2 0 0) (spaces settingsW2 gW2 1)) 2 := by
    refine ⟨2, by norm_num, by norm_num, ?_⟩
    have hmin : min (gW2 0 0) (spaces settingsW2 gW2 1) = 6 := by
      norm_num [gW2, spaces, rowSum, settingsW2, Fin.sum_univ_one]
    rw [hmin]; norm_num
  refine ⟨⟨hI1, hI2, hTo, hFrom⟩, ?_⟩
  exact (mutate_goods_allocation_preserves settingsW2 gW2 0 1 0 2
    hI1 hI2 hTo hFrom hsup).1

/-- First element of minimum value of f in the list a :: l, computed by a
left fold that replaces the current best only on strictly smaller value:
this is sorted(a :: l, key=f)[0] for a stable sort. -/
def bestOf {α : Type} (f : α → ℚ) (a : α) (l : List α) : α :=
  l.foldl (fun best x => if f x < f best then x else best) a

lemma bestOf_mem {α : Type} (f : α → ℚ) :
    ∀ (l : List α) (a : α), bestOf f a l ∈ a :: l := by
  intro l
  induction l with
  | nil => intro a; simp [bestOf]
  | cons b l ih =>
      intro a
      have hstep : bestOf f a (b :: l) = bestOf f (if f b < f a then b else a) l := rfl
      rw [hstep]
      rcases List.mem_cons.1 (ih (if f b < f a then b else a)) with h | h
      · rw [h]
        by_cases hc : f b < f a <;> simp [hc]
      · simp [h]

lemma bestOf_le {α : Type} (f : α → ℚ) :
    ∀ (l : List α) (a : α), ∀ x ∈ a :: l, f (bestOf f a l) ≤ f x := by
  intro l
  induction l with
  | nil => intro a x hx; rw [List.mem_singleton.1 hx]; simp [bestOf]
  | cons b l ih =>
      intro a x hx
      have hstep : bestOf f a (b :: l) = bestOf f (if f b < f a then b else a) l := rfl
      have hhead : f (bestOf f (if f b < f a then b else a) l)
          ≤ f (if f b < f a then b else a) :=
        ih (if f b < f a then b else a) _ (List.mem_cons_self _ _)
      rcases List.mem_cons.1 hx with h | h
      · subst h
        rw [hstep]
        refine le_trans hhead ?_
        by_cases hc : f b < f x
        · simp [hc]; exact le_of_lt hc
        · simp [hc]
      · rcases List.mem_cons.1 h with h2 | h2
        · subst h2
          rw [hstep]
          refine le_trans hhead ?_
          by_cases hc : f x < f a
          · simp [hc]
          · simp [hc]; exact not_lt.1 hc
        · rw [hstep]
          exact ih (if f b < f a then b else a) x (List.mem_cons_of_mem _ h2)

lemma bestOf_append_single {α : Type} (f : α → ℚ) (a : α) (l : List α) (s : α) :
    bestOf f a (l ++ [s]) = if f s < f (bestOf f a l) then s else bestOf f a l := by
  simp [bestOf, List.foldl_append]

/-- bees_algorithm.py _find_best_neighbour: the deep-copied and mutated
neighbours are supplied as the randomness parameter, the original solution
is appended after them, and the returned element is sorted(...)[0], the
first element of minimum cost under the stable Python sort. -/
def find_best_neighbour {n m p : ℕ} (st : Settings n m p)
    (sol : Solution n m p) (neighbours : List (Solution n m p)) :
    Solution n m p :=
  match neighbours ++ [sol] with
  | [] => sol
  | x :: xs => bestOf (fun s => calculate_cost s st) x xs

lemma find_best_neighbour_nil {n m p : ℕ} (st : Settings n m p)
    (sol : Solution n m p) : find_best_neighbour st sol [] = sol := rfl

lemma find_best_neighbour_cons {n m p : ℕ} (st : Settings n m p)
    (sol : Solution n m p) (h : Solution n m p) (t : List (Solution n m p)) :
    find_best_neighbour st sol (h :: t)
      = bestOf (fun s => calculate_cost s st) h (t ++ [sol]) := rfl

/-- C6: find_best_neighbour returns an element of the mutated copies
together with the original solution, of minimum cost among all of them, so
its cost is at most the cost of the input solution; the embedding is a pure
function of the input, which is returned unmodified as the appended
candidate. -/
theorem find_best_neighbour_spec {n m p : ℕ} (st : Settings n m p)
    (sol : Solution n m p) (neighbours : List (Solution n m p)) :
    find_best_neighbour st sol neighbours ∈ neighbours ++ [sol]
    ∧ (∀ x ∈ neighbours ++ [sol],
        calculate_cost (find_best_neighbour st sol neighbours) st
          ≤ calculate_cost x st)
    ∧ calculate_cost (find_best_neighbour st sol neighbours) st
        ≤ calculate_cost sol st := by
  match neighbours with
  | [] =>
      rw [find_best_neighbour_nil]
      exact ⟨by simp, by intro x hx; simp at hx; rw [hx], le_refl _⟩
  | h :: t =>
      rw [find_best_neighbour_cons]
      have hmem := bestOf_mem (fun s => calculate_cost s st) (t ++ [sol]) h
      have hle := bestOf_le (fun s => calculate_cost s st) (t ++ [sol]) h
      exact ⟨hmem, hle, hle sol (by simp)⟩

/-- C10: when the best mutated neighbour ties the original solution on exact
cost, find_best_neighbour returns that neighbour, an element of the mutated
copies, not the appended original: the original is appended last and the
stable sort keeps the first-listed minimum. -/
theorem find_best_neighbour_tie {n m p : ℕ} (st : Settings n m p)
    (sol : Solution n m p) (nh : Solution n m p) (nt : List (Solution n m p))
    (htie : calculate_cost (bestOf (fun s => calculate_cost s st) nh nt) st
      = calculate_cost sol st) :
    find_best_neighbour st sol (nh :: nt)
      = bestOf (fun s => calculate_cost s st) nh nt
    ∧ bestOf (fun s => calculate_cost s st) nh nt ∈ nh :: nt := by
  constructor
  · rw [find_best_neighbour_cons, bestOf_append_single, if_neg]
    exact not_lt.2 (le_of_eq htie)
  · exact bestOf_mem _ _ _

/-- Concrete settings with two crossings of identical duty and distance,
used by the neighbourhood-search witnesses. -/
def settingsTie : Settings 2 1 1 :=
  ⟨10, 1, fun _ _ => 1, fun _ => 1, fun _ => 3⟩

/-- Concrete solution using crossing 0. -/
def solCross0 : Solution 2 1 1 := ⟨fun _ => 0, fun _ _ => 3⟩

/-- Concrete solution using crossing 1, of the same cost as solCross0. -/
def solCross1 : Solution 2 1 1 := ⟨fun _ => 1, fun _ _ => 3⟩

/-- Witness for C10: a mutated neighbour with exactly the cost of the
original is returned in place of the original. -/
theorem find_best_neighbour_tie_witness :
    (calculate_cost (bestOf (fun s => calculate_cost s settingsTie) solCross1 [])
        settingsTie = calculate_cost solCross0 settingsTie)
    ∧ find_best_neighbour settingsTie solCross0 [solCross1]
        = bestOf (fun s => calculate_cost s settingsTie) solCross1 [] := by
  have h : calculate_cost (bestOf (fun s => calculate_cost s settingsTie)
      solCross1 []) settingsTie = calculate_cost solCross0 settingsTie := by
    show calculate_cost solCross1 settingsTie = calculate_cost solCross0 settingsTie
    norm_num [calculate_cost, settingsTie, solCross0, solCross1, Fin.sum_univ_one]
  exact ⟨h, (find_best_neighbour_tie settingsTie solCross0 solCross1 [] h).1⟩

/-- Witness for C6: the specification applied at a concrete input. -/
theorem find_best_neighbour_spec_witness :
    find_best_neighbour settingsTie solCross1 [solCross0] ∈ [solCross0] ++ [solCross1]
    ∧ calculate_cost (find_best_neighbour settingsTie solCross1 [solCross0])
        settingsTie ≤ calculate_cost solCross1 settingsTie :=
  ⟨(find_best_neighbour_spec settingsTie solCross1 [solCross0]).1,
    (find_best_neighbour_spec settingsTie solCross1 [solCross0]).2.2⟩

/-- C4 counterexample: the moved amount of _mutate_goods_allocation is drawn
by random.randint(1, max_amount), whose support excludes 0, excludes the
non-integer 3/2 even below the bound 2, and is empty for the positive upper
bound 1/2, contradicting a uniform draw from the real interval [0, max]. -/
theorem mutate_amount_draw_cex :
    ¬ randintSupport 2 0
    ∧ ¬ randintSupport 2 (3 / 2)
    ∧ (0 : ℚ) < 1 / 2
    ∧ ¬ ∃ x, randintSupport (1 / 2) x := by
  refine ⟨?_, ?_, by norm_num, ?_⟩
  · rintro ⟨z, hz, h1, h2⟩
    have hz0 : z = 0 := by exact_mod_cast hz.symm
    omega
  · rintro ⟨z, hz, h1, h2⟩
    have h3 : (3 : ℚ) = 2 * (z : ℚ) := by
      rw [← mul_comm]
      linarith [hz]
    have h4 : (3 : ℤ) = 2 * z := by exact_mod_cast h3
    omega
  · rintro ⟨x, z, hz, h1, h2⟩
    have h3 : (1 : ℚ) ≤ (z : ℚ) := by exact_mod_cast h1
    linarith

/-- C4 (amended): the moved amount is an integer drawn from the randint
support {z : ℤ, 1 ≤ z ≤ max_amount}: 0 and non-integer amounts are
impossible, and the draw has a possible outcome exactly when
max_amount ≥ 1, not for every positive upper bound. -/
theorem mutate_amount_support_spec (hi : ℚ) :
    (∀ x, randintSupport hi x → (1 ≤ x ∧ x ≤ hi ∧ ∃ z : ℤ, x = (z : ℚ)))
    ∧ ((∃ x, randintSupport hi x) ↔ 1 ≤ hi) := by
  constructor
  · rintro x ⟨z, hzx, h1, h2⟩
    subst hzx
    exact ⟨by exact_mod_cast h1, h2, z, rfl⟩
  · constructor
    · rintro ⟨x, z, hzx, h1, h2⟩
      have h3 : (1 : ℚ) ≤ (z : ℚ) := by exact_mod_cast h1
      linarith
    · intro h
      exact ⟨1, 1, by norm_num, le_refl 1, by exact_mod_cast h⟩

/-- Witness for C4 (amended): the amount 2 is in the support for the bound
3 and the amended properties hold for it. -/
theorem mutate_amount_support_spec_witness :
    randintSupport 3 2
    ∧ (1 ≤ (2 : ℚ) ∧ (2 : ℚ) ≤ 3 ∧ ∃ z : ℤ, (2 : ℚ) = (z : ℚ)) := by
  have hsup : randintSupport 3 2 := ⟨2, by norm_num, by norm_num, by norm_num⟩
  exact ⟨hsup, (mutate_amount_support_spec 3).1 2 hsup⟩

/-- Error kind named ConfigurationError by the specification.  The sources
never raise it: neither constructor contains a check. -/
inductive ConfigError where
  | configurationError
deriving DecidableEq

/-- Raw settings exactly as the Settings NamedTuple stores them: arbitrary
lists, with no link between the declared dimensions and the array shapes. -/
structure RawSettings where
  crossingsNumber : ℕ
  goodsTypesNumber : ℕ
  trucksNumber : ℕ
  truckCapacity : ℚ
  fuelCost : ℚ
  duties : List (List ℚ)
  distances : List ℚ
  goodsAmounts : List ℚ

/-- Solver configuration exactly as BeesSolver.__init__ stores it. -/
structure BeesConfig where
  settings : RawSettings
  populationSize : ℕ
  goodsMutations : ℕ
  trucksMutations : ℕ
  eliteSites : ℕ
  normalSites : ℕ
  eliteSiteSize : ℕ
  normalSiteSize : ℕ

/-- model.py Settings construction: a NamedTuple stores the given values and
performs no dimension check, so the error branch is never taken. -/
def mkSettings (n m p : ℕ) (v f : ℚ) (duties : List (List ℚ))
    (distances goodsAmounts : List ℚ) : Except ConfigError RawSettings :=
  Except.ok ⟨n, m, p, v, f, duties, distances, goodsAmounts⟩

/-- bees_algorithm.py BeesSolver.__init__: stores the parameters with no
validation, so the error branch is never taken. -/
def mkBeesSolver (s : RawSettings) (populationSize goodsMutations
    trucksMutations eliteSites normalSites eliteSiteSize normalSiteSize : ℕ) :
    Except ConfigError BeesConfig :=
  Except.ok ⟨s, populationSize, goodsMutations, trucksMutations, eliteSites,
    normalSites, eliteSiteSize, normalSiteSize⟩

/-- Raw settings with deliberately mismatched array dimensions: all three
arrays are empty although the declared dimensions are positive. -/
def rawDemo : RawSettings := ⟨3, 4, 5, 15, 53 / 10, [], [], []⟩

/-- C7 counterexample: constructing a solver with
elite_sites + normal_sites = 5 > 1 = population_size succeeds, and
constructing Settings with empty arrays despite positive declared
dimensions succeeds: no ConfigurationError is raised at construction. -/
theorem construction_no_validation_cex :
    1 < 2 + 3
    ∧ mkBeesSolver rawDemo 1 2 1 2 3 7 2
        = Except.ok ⟨rawDemo, 1, 2, 1, 2, 3, 7, 2⟩
    ∧ mkBeesSolver rawDemo 1 2 1 2 3 7 2
        ≠ Except.error ConfigError.configurationError
    ∧ rawDemo.duties.length = 0
    ∧ rawDemo.crossingsNumber = 3
    ∧ mkSettings 3 4 5 15 (53 / 10) [] [] []
        ≠ Except.error ConfigError.configurationError := by
  refine ⟨by norm_num, rfl, ?_, rfl, rfl, ?_⟩ <;> simp [mkBeesSolver, mkSettings]

/-- C7 (amended): neither solver construction nor Settings construction
performs any validation: both always return the stored configuration, for
every combination of parameters, including elite_sites + normal_sites
greater than population_size and arbitrary array dimension mismatches. -/
theorem construction_never_raises (s : RawSettings)
    (populationSize goodsMutations trucksMutations eliteSites normalSites
      eliteSiteSize normalSiteSize : ℕ) (n m p : ℕ) (v f : ℚ)
    (duties : List (List ℚ)) (distances goodsAmounts : List ℚ) :
    mkBeesSolver s populationSize goodsMutations trucksMutations eliteSites
        normalSites eliteSiteSize normalSiteSize
      = Except.ok ⟨s, populationSize, goodsMutations, trucksMutations,
          eliteSites, normalSites, eliteSiteSize, normalSiteSize⟩
    ∧ mkSettings n m p v f duties distances goodsAmounts
      = Except.ok ⟨n, m, p, v, f, duties, distances, goodsAmounts⟩ :=
  ⟨rfl, rfl⟩

instance costLeDecidable {n m p : ℕ} (st : Settings n m p) :
    DecidableRel (fun a b : Solution n m p =>
      calculate_cost a st ≤ calculate_cost b st) :=
  fun a b => inferInstanceAs (Decidable (_ ≤ _))

/-- Index loop of _simulate_population: position i is replaced by the best
neighbour of its site when i < elite_sites (elite site, elite_site_size
neighbours) or i < elite_sites + normal_sites (normal site,
normal_site_size neighbours), and by a fresh scout solution otherwise.  The
mutated neighbour lists and the scout solutions are the randomness
parameters; the site size only fixes how many neighbours are drawn, that
is, the length of the supplied list. -/
def simulate_sites {n m p : ℕ} (st : Settings n m p)
    (eliteSites normalSites : ℕ) (nbs : ℕ → List (Solution n m p))
    (scouts : ℕ → Solution n m p) :
    ℕ → List (Solution n m p) → List (Solution n m p)
  | _, [] => []
  | i, s :: rest =>
      (if i < eliteSites then find_best_neighbour st s (nbs i)
       else if i < eliteSites + normalSites then find_best_neighbour st s (nbs i)
       else scouts i)
        :: simulate_sites st eliteSites normalSites nbs scouts (i + 1) rest

/-- bees_algorithm.py _simulate_population: sort the population by cost
ascending (the Python sort is stable), then rewrite every index with the
site loop. -/
def simulate_population {n m p : ℕ} (st : Settings n m p)
    (eliteSites normalSites : ℕ) (nbs : ℕ → List (Solution n m p))
    (scouts : ℕ → Solution n m p) (population : List (Solution n m p)) :
    List (Solution n m p) :=
  simulate_sites st eliteSites normalSites nbs scouts 0
    (List.insertionSort
      (fun a b => calculate_cost a st ≤ calculate_cost b st) population)

/-- C5: with elite_sites ≥ 1, for every population and every random outcome
one generation step never increases the cost of population[0]: the head of
the new population costs at most the head of the old one. -/
theorem simulate_population_head_mono {n m p : ℕ} (st : Settings n m p)
    (eliteSites normalSites : ℕ) (nbs : ℕ → List (Solution n m p))
    (scouts : ℕ → Solution n m p) (s0 : Solution n m p)
    (rest : List (Solution n m p)) (he : 1 ≤ eliteSites) :
    ∀ q qs,
      simulate_population st eliteSites normalSites nbs scouts (s0 :: rest)
        = q :: qs →
      calculate_cost q st ≤ calculate_cost s0 st := by
  intro q qs hq
  set r := fun a b : Solution n m p =>
    calculate_cost a st ≤ calculate_cost b st with hr
  letI : IsTotal (Solution n m p) r := ⟨fun a b => le_total _ _⟩
  letI : IsTrans (Solution n m p) r := ⟨fun a b c hab hbc => le_trans hab hbc⟩
  have hperm : List.Perm (List.insertionSort r (s0 :: rest)) (s0 :: rest) :=
    List.perm_insertionSort r (s0 :: rest)
  have hsorted : List.Sorted r (List.insertionSort r (s0 :: rest)) :=
    List.sorted_insertionSort r (s0 :: rest)
  obtain ⟨t0, ts, hts⟩ : ∃ t0 ts, List.insertionSort r (s0 :: rest) = t0 :: ts := by
    cases hsort : List.insertionSort r (s0 :: rest) with
    | nil =>
        exfalso
        have := hperm.length_eq
        rw [hsort] at this
        simp at this
    | cons t0 ts => exact ⟨t0, ts, rfl⟩
  have hmin : ∀ x ∈ s0 :: rest, calculate_cost t0 st ≤ calculate_cost x st := by
    intro x hx
    have hxs : x ∈ t0 :: ts := by
      rw [← hts]
      exact hperm.mem_iff.2 hx
    rcases List.mem_cons.1 hxs with h | h
    · rw [h]
    · rw [hts] at hsorted
      exact List.rel_of_sorted_cons hsorted x h
  have hq2 : q = find_best_neighbour st t0 (nbs 0) := by
    unfold simulate_population at hq
    rw [hts] at hq
    rw [simulate_sites] at hq
    rw [if_pos (by omega)] at hq
    injection hq with h1 h2
    exact h1.symm
  rw [hq2]
  refine le_trans (find_best_neighbour_spec st t0 (nbs 0)).2.2 ?_
  exact hmin s0 (List.mem_cons_self _ _)

/-- Witness for C5: one generation step applied to a concrete singleton
population with one elite site. -/
theorem simulate_population_head_mono_witness :
    (1 : ℕ) ≤ 1
    ∧ calculate_cost solCross0 settingsTie ≤ calculate_cost solCross0 settingsTie :=
  ⟨le_refl 1,
    simulate_population_head_mono settingsTie 1 0 (fun _ => [])
      (fun _ => solCross0) solCross0 [] (le_refl 1) solCross0 [] rfl⟩

/-- numpy argmax on a nonempty vector: the first index of maximum value,
computed by a left fold that replaces the current best only on a strictly
larger value. -/
def argmaxIdx {k : ℕ} (f : Fin k → ℚ) (h : 0 < k) : Fin k :=
  (List.finRange k).foldl (fun b i => if f b < f i then i else b) ⟨0, h⟩

/-- numpy argmin on a nonempty vector: the first index of minimum value. -/
def argminIdx {k : ℕ} (f : Fin k → ℚ) (h : 0 < k) : Fin k :=
  (List.finRange k).foldl (fun b i => if f i < f b then i else b) ⟨0, h⟩

lemma foldl_argmax_ge {k : ℕ} (f : Fin k → ℚ) :
    ∀ (l : List (Fin k)) (b : Fin k),
      f b ≤ f (l.foldl (fun b2 i => if f b2 < f i then i else b2) b)
      ∧ ∀ i ∈ l, f i ≤ f (l.foldl (fun b2 i => if f b2 < f i then i else b2) b) := by
  intro l
  induction l with
  | nil => intro b; exact ⟨le_refl _, by simp⟩
  | cons a l ih =>
      intro b
      have hstep : (a :: l).foldl (fun b2 i => if f b2 < f i then i else b2) b
          = l.foldl (fun b2 i => if f b2 < f i then i else b2)
              (if f b < f a then a else b) := rfl
      have hb : f b ≤ f (if f b < f a then a else b) := by
        by_cases hc : f b < f a
        · simp [hc]; exact le_of_lt hc
        · simp [hc]
      have ha : f a ≤ f (if f b < f a then a else b) := by
        by_cases hc : f b < f a
        · simp [hc]
        · simp [hc]; exact not_lt.1 hc
      refine ⟨?_, ?_⟩
      · rw [hstep]
        exact le_trans hb (ih _).1
      · intro i hi
        rcases List.mem_cons.1 hi with h | h
        · subst h
          rw [hstep]
          exact le_trans ha (ih _).1
        · rw [hstep]
          exact (ih _).2 i h

lemma foldl_argmin_le {k : ℕ} (f : Fin k → ℚ) :
    ∀ (l : List (Fin k)) (b : Fin k),
      f (l.foldl (fun b2 i => if f i < f b2 then i else b2) b) ≤ f b
      ∧ ∀ i ∈ l, f (l.foldl (fun b2 i => if f i < f b2 then i else b2) b) ≤ f i := by
  intro l
  induction l with
  | nil => intro b; exact ⟨le_refl _, by simp⟩
  | cons a l ih =>
      intro b
      have hstep : (a :: l).foldl (fun b2 i => if f i < f b2 then i else b2) b
          = l.foldl (fun b2 i => if f i < f b2 then i else b2)
              (if f a < f b then a else b) := rfl
      have hb : f (if f a < f b then a else b) ≤ f b := by
        by_cases hc : f a < f b
        · simp [hc]; exact le_of_lt hc
        · simp [hc]
      have ha : f (if f a < f b then a else b) ≤ f a := by
        by_cases hc : f a < f b
        · simp [hc]
        · simp [hc]; exact not_lt.1 hc
      refine ⟨?_, ?_⟩
      · rw [hstep]
        exact le_trans (ih _).1 hb
      · intro i hi
        rcases List.mem_cons.1 hi with h | h
        · subst h
          rw [hstep]
          exact le_trans (ih _).1 ha
        · rw [hstep]
          exact (ih _).2 i h

lemma argmaxIdx_spec {k : ℕ} (f : Fin k → ℚ) (h : 0 < k) :
    ∀ i, f i ≤ f (argmaxIdx f h) := by
  intro i
  exact (foldl_argmax_ge f (List.finRange k) ⟨0, h⟩).2 i (List.mem_finRange i)

lemma argminIdx_spec {k : ℕ} (f : Fin k → ℚ) (h : 0 < k) :
    ∀ i, f (argminIdx f h) ≤ f i := by
  intro i
  exact (foldl_argmin_le f (List.finRange k) ⟨0, h⟩).2 i (List.mem_finRange i)

/-- Loop condition of the capacity-repair loop of
generate_random_goods_allocation: np.any(allocation.sum(axis=1) > v). -/
def anyOverloaded {p m : ℕ} (v : ℚ) (A : Fin p → Fin m → ℚ) : Prop :=
  ∃ i, v < rowSum A i

instance {p m : ℕ} (v : ℚ) (A : Fin p → Fin m → ℚ) :
    Decidable (anyOverloaded v A) := by
  unfold anyOverloaded; infer_instance

/-- Body of the capacity-repair loop of generate_random_goods_allocation:
move min(largest entry of the most loaded row, its excess over capacity)
from the most loaded truck k1 to the least loaded truck k2, inside the
column of the largest entry of row k1.  The two numpy in-place updates are
applied sequentially, exactly as in the source. -/
def repairMove {p m : ℕ} (v : ℚ) (A : Fin p → Fin m → ℚ)
    (hp : 0 < p) (hm : 0 < m) : Fin p → Fin m → ℚ :=
  let d := argmaxIdx (rowSum A) hp
  let r := argminIdx (rowSum A) hp
  let j := argmaxIdx (A d) hm
  let amount := min (A d j) (rowSum A d - v)
  updEntry (updEntry A d j (A d j - amount)) r j
    (updEntry A d j (A d j - amount) r j + amount)

/-- One guarded iteration of the repair loop.  When some truck is over
capacity the move is applied; the conjunct 0 < m makes the function total
(with m = 0 and v < 0 the source would crash on an empty argmax, a state
unreachable for the nonnegative capacities of the data model). -/
def repairStep {p m : ℕ} (v : ℚ) (A : Fin p → Fin m → ℚ) :
    Fin p → Fin m → ℚ :=
  if h : anyOverloaded v A ∧ 0 < m then
    repairMove v A (h.1.elim fun i _ => i.pos) h.2
  else A

/-- The repair while loop with explicit fuel: the source loop is unbounded,
and the termination theorem shows the fuel used by repairLoop suffices. -/
def repairAux {p m : ℕ} (v : ℚ) : ℕ → (Fin p → Fin m → ℚ) → Fin p → Fin m → ℚ
  | 0, A => A
  | fuel + 1, A =>
      if anyOverloaded v A then repairAux v fuel (repairStep v A) else A

/-- Number of strictly positive entries of a row. -/
def nnzRow {m : ℕ} (f : Fin m → ℚ) : ℕ :=
  (Finset.univ.filter fun j => 0 < f j).card

/-- Row contribution to the termination measure: an overloaded row counts
twice its positive entries, an underloaded row counts its positive entries
plus m + 1, a row exactly at capacity is inert and counts 0. -/
def rowWeight (v : ℚ) (m : ℕ) (s : ℚ) (k : ℕ) : ℕ :=
  if v < s then 2 * k else if s < v then k + m + 1 else 0

/-- Termination measure of the repair loop. -/
def mu {p m : ℕ} (v : ℚ) (A : Fin p → Fin m → ℚ) : ℕ :=
  ∑ i, rowWeight v m (rowSum A i) (nnzRow (A i))

/-- Total capacity overflow: the sum over trucks of the excess of the row
sum over capacity, clamped at zero. -/
def overflow {p m : ℕ} (v : ℚ) (A : Fin p → Fin m → ℚ) : ℚ :=
  ∑ i, max (rowSum A i - v) 0

/-- The repair loop as run by generate_random_goods_allocation, with fuel
mu + 1, an amount the termination theorem proves sufficient. -/
def repairLoop {p m : ℕ} (v : ℚ) (A : Fin p → Fin m → ℚ) :
    Fin p → Fin m → ℚ :=
  repairAux v (mu v A + 1) A

lemma nnzRow_le {m : ℕ} (f : Fin m → ℚ) : nnzRow f ≤ m := by
  unfold nnzRow
  exact le_trans (Finset.card_filter_le _ _) (by simp)

lemma nnzRow_pos {m : ℕ} (f : Fin m → ℚ) (j : Fin m) (h : 0 < f j) :
    1 ≤ nnzRow f :=
  Finset.card_pos.2 ⟨j, Finset.mem_filter.2 ⟨Finset.mem_univ j, h⟩⟩

lemma nnzRow_update_zero {m : ℕ} (f : Fin m → ℚ) (j : Fin m) (y : ℚ)
    (hy : ¬ 0 < y) (hfj : 0 < f j) :
    nnzRow (Function.update f j y) + 1 = nnzRow f := by
  unfold nnzRow
  have hfilter : (Finset.univ.filter fun j2 => 0 < Function.update f j y j2)
      = (Finset.univ.filter fun j2 => 0 < f j2).erase j := by
    ext j2
    by_cases h : j2 = j
    · subst h
      simp [Function.update_apply, hy]
    · simp [Function.update_apply, h]
  rw [hfilter,
    Finset.card_erase_of_mem (Finset.mem_filter.2 ⟨Finset.mem_univ j, hfj⟩)]
  have h1 : 1 ≤ (Finset.univ.filter fun j2 => 0 < f j2).card :=
    Finset.card_pos.2 ⟨j, Finset.mem_filter.2 ⟨Finset.mem_univ j, hfj⟩⟩
  omega

lemma nnzRow_update_le {m : ℕ} (f : Fin m → ℚ) (j : Fin m) (y : ℚ) :
    nnzRow (Function.update f j y) ≤ nnzRow f + 1 := by
  unfold nnzRow
  have hsub : (Finset.univ.filter fun j2 => 0 < Function.update f j y j2)
      ⊆ insert j (Finset.univ.filter fun j2 => 0 < f j2) := by
    intro j2 h2
    rcases Finset.mem_filter.1 h2 with ⟨_, hpos⟩
    by_cases h : j2 = j
    · exact Finset.mem_insert.2 (Or.inl h)
    · rw [Function.update_apply, if_neg h] at hpos
      exact Finset.mem_insert.2
        (Or.inr (Finset.mem_filter.2 ⟨Finset.mem_univ j2, hpos⟩))
  exact le_trans (Finset.card_le_card hsub) (Finset.card_insert_le _ _)

/-- One repair move strictly decreases the termination measure mu and the
total overflow, preserves nonnegativity of the entries, and preserves the
total amount of goods, provided the donor d is a most loaded truck over
capacity, the receiver r is a least loaded truck, j is the largest column
of the donor row, and the total load does not exceed total capacity. -/
lemma move_decrease {p m : ℕ} (v : ℚ) (A : Fin p → Fin m → ℚ)
    (d r : Fin p) (j : Fin m) (amount : ℚ)
    (hA : ∀ i j2, 0 ≤ A i j2) (hv : 0 ≤ v)
    (hdmax : ∀ i, rowSum A i ≤ rowSum A d)
    (hrmin : ∀ i, rowSum A r ≤ rowSum A i)
    (hjmax : ∀ j2, A d j2 ≤ A d j)
    (hamt : amount = min (A d j) (rowSum A d - v))
    (htot : ∑ i, rowSum A i ≤ (p : ℚ) * v)
    (hcond : v < rowSum A d)
    (B : Fin p → Fin m → ℚ)
    (hB : B = updEntry (updEntry A d j (A d j - amount)) r j
        (updEntry A d j (A d j - amount) r j + amount)) :
    mu v B < mu v A
    ∧ (∀ i j2, 0 ≤ B i j2)
    ∧ (∑ i, rowSum B i = ∑ i, rowSum A i)
    ∧ overflow v B < overflow v A := by
  have hrlt : rowSum A r < v := by
    by_contra hge
    push_neg at hge
    have hlt : (Finset.univ : Finset (Fin p)).sum (fun _ => v)
        < ∑ i, rowSum A i :=
      Finset.sum_lt_sum (fun i _ => le_trans hge (hrmin i))
        ⟨d, Finset.mem_univ d, hcond⟩
    rw [Finset.sum_const, Finset.card_univ, Fintype.card_fin, nsmul_eq_mul] at hlt
    linarith
  have hdr : d ≠ r := by
    intro h
    rw [h] at hcond
    linarith
  have hAdj : 0 < A d j := by
    have h1 : rowSum A d ≤ (m : ℚ) * A d j := by
      unfold rowSum
      calc ∑ j2, A d j2 ≤ ∑ _j2 : Fin m, A d j :=
            Finset.sum_le_sum fun j2 _ => hjmax j2
        _ = (m : ℚ) * A d j := by
            rw [Finset.sum_const, Finset.card_univ, Fintype.card_fin, nsmul_eq_mul]
    by_contra hle
    push_neg at hle
    have h2 : (m : ℚ) * A d j ≤ 0 :=
      mul_nonpos_iff.2 (Or.inl ⟨by positivity, hle⟩)
    linarith
  have hamt_pos : 0 < amount := by
    rw [hamt]
    exact lt_min hAdj (by linarith)
  have hamt_le1 : amount ≤ A d j := by rw [hamt]; exact min_le_left _ _
  have hamt_le2 : amount ≤ rowSum A d - v := by rw [hamt]; exact min_le_right _ _
  have hBd : B d = Function.update (A d) j (A d j - amount) := by
    funext j2
    simp [hB, updEntry_apply, Function.update_apply, hdr]
  have hBr : B r = Function.update (A r) j (A r j + amount) := by
    funext j2
    simp [hB, updEntry_apply, Function.update_apply, Ne.symm hdr]
  have hBother : ∀ i, i ≠ d → i ≠ r → B i = A i := by
    intro i hid hir
    funext j2
    simp [hB, updEntry_apply, hid, hir]
  have hrowBd : rowSum B d = rowSum A d - amount := by
    unfold rowSum
    simp only [hBd]
    rw [sum_update]
    ring
  have hrowBr : rowSum B r = rowSum A r + amount := by
    unfold rowSum
    simp only [hBr]
    rw [sum_update]
    ring
  have hrowBo : ∀ i, i ≠ d → i ≠ r → rowSum B i = rowSum A i := by
    intro i hid hir
    unfold rowSum
    simp only [hBother i hid hir]
  have hBnn : ∀ i j2, 0 ≤ B i j2 := by
    intro i j2
    by_cases hir : i = r
    · subst hir
      rw [hBr, Function.update_apply]
      by_cases hj2 : j2 = j
      · rw [if_pos hj2]
        exact add_nonneg (hA i j) (le_of_lt hamt_pos)
      · rw [if_neg hj2]
        exact hA i j2
    · by_cases hid : i = d
      · subst hid
        rw [hBd, Function.update_apply]
        by_cases hj2 : j2 = j
        · rw [if_pos hj2]
          linarith
        · rw [if_neg hj2]
          exact hA i j2
      · rw [hBother i hid hir]
        exact hA i j2
  have hsum : ∑ i, rowSum B i = ∑ i, rowSum A i := by
    have hterm : ∀ i, rowSum B i = rowSum A i
        + ((if i = d then -amount else 0) + (if i = r then amount else 0)) := by
      intro i
      by_cases hid : i = d
      · subst hid
        rw [hrowBd, if_pos rfl, if_neg hdr]
        ring
      · by_cases hir : i = r
        · subst hir
          rw [hrowBr, if_neg hid, if_pos rfl]
          ring
        · rw [hrowBo i hid hir, if_neg hid, if_neg hir]
          ring
    rw [Finset.sum_congr rfl fun i _ => hterm i, Finset.sum_add_distrib,
      Finset.sum_add_distrib, Finset.sum_ite_eq' Finset.univ d fun _ => -amount,
      Finset.sum_ite_eq' Finset.univ r fun _ => amount]
    simp
  have hovB : overflow v B < overflow v A := by
    have hmaxd : max (rowSum B d - v) 0 = max (rowSum A d - v) 0 - amount := by
      rw [hrowBd, max_eq_left (by linarith), max_eq_left (by linarith)]
      ring
    have hmaxrA : max (rowSum A r - v) 0 = 0 := max_eq_right (by linarith)
    have hw2lt : max (rowSum B r - v) 0 < amount := by
      rcases le_or_lt (rowSum B r - v) 0 with h | h
      · rw [max_eq_right h]
        exact hamt_pos
      · rw [max_eq_left (le_of_lt h), hrowBr]
        linarith
    have hterm : ∀ i, max (rowSum B i - v) 0 = max (rowSum A i - v) 0
        + ((if i = d then -amount else 0)
          + (if i = r then max (rowSum B r - v) 0 else 0)) := by
      intro i
      by_cases hid : i = d
      · subst hid
        rw [if_pos rfl, if_neg hdr, hmaxd]
        ring
      · by_cases hir : i = r
        · subst hir
          rw [if_neg hid, if_pos rfl, hmaxrA]
          ring
        · rw [if_neg hid, if_neg hir]
          have h1 : rowSum B i = rowSum A i := hrowBo i hid hir
          rw [h1]
          ring
    unfold overflow
    rw [Finset.sum_congr rfl fun i _ => hterm i, Finset.sum_add_distrib,
      Finset.sum_add_distrib, Finset.sum_ite_eq' Finset.univ d fun _ => -amount,
      Finset.sum_ite_eq' Finset.univ r fun _ => max (rowSum B r - v) 0]
    simp only [Finset.mem_univ, if_pos]
    linarith
  have hwd : rowWeight v m (rowSum A d) (nnzRow (A d)) = 2 * nnzRow (A d) := by
    unfold rowWeight
    rw [if_pos hcond]
  have hnnzd : 1 ≤ nnzRow (A d) := nnzRow_pos (A d) j hAdj
  have hwBd : rowWeight v m (rowSum B d) (nnzRow (B d)) + 2
      ≤ rowWeight v m (rowSum A d) (nnzRow (A d)) := by
    rw [hwd]
    have hge : v ≤ rowSum B d := by
      rw [hrowBd]
      linarith
    rcases eq_or_lt_of_le hge with heq | hlt
    · have h0 : rowWeight v m (rowSum B d) (nnzRow (B d)) = 0 := by
        unfold rowWeight
        rw [if_neg (by rw [← heq]; exact lt_irrefl v),
          if_neg (by rw [← heq]; exact lt_irrefl v)]
      omega
    · have hlt2 : amount < rowSum A d - v := by
        rw [hrowBd] at hlt
        linarith
      have hamteq : amount = A d j := by
        rcases min_cases (A d j) (rowSum A d - v) with ⟨h1, _⟩ | ⟨h1, _⟩
        · rw [hamt, h1]
        · exfalso
          rw [hamt, h1] at hlt2
          exact lt_irrefl _ hlt2
      have hupd : B d = Function.update (A d) j 0 := by
        rw [hBd, hamteq, sub_self]
      have hnnz : nnzRow (B d) + 1 = nnzRow (A d) := by
        rw [hupd]
        exact nnzRow_update_zero (A d) j 0 (lt_irrefl 0) hAdj
      have h2 : rowWeight v m (rowSum B d) (nnzRow (B d)) = 2 * nnzRow (B d) := by
        unfold rowWeight
        rw [if_pos hlt]
      omega
  have hwr : rowWeight v m (rowSum A r) (nnzRow (A r)) = nnzRow (A r) + m + 1 := by
    unfold rowWeight
    rw [if_neg (not_lt.2 (le_of_lt hrlt)), if_pos hrlt]
  have hnnzrle : nnzRow (A r) ≤ m := nnzRow_le (A r)
  have hnnzBr : nnzRow (B r) ≤ nnzRow (A r) + 1 := by
    rw [hBr]
    exact nnzRow_update_le (A r) j (A r j + amount)
  have hwBr : rowWeight v m (rowSum B r) (nnzRow (B r))
      ≤ rowWeight v m (rowSum A r) (nnzRow (A r)) + 1 := by
    rw [hwr]
    unfold rowWeight
    by_cases h1 : v < rowSum B r
    · rw [if_pos h1]
      omega
    · rw [if_neg h1]
      by_cases h2 : rowSum B r < v
      · rw [if_pos h2]
        omega
      · rw [if_neg h2]
        omega
  have hwBo : ∀ i, i ≠ d → i ≠ r →
      rowWeight v m (rowSum B i) (nnzRow (B i))
        = rowWeight v m (rowSum A i) (nnzRow (A i)) := by
    intro i hid hir
    rw [hrowBo i hid hir, hBother i hid hir]
  have hrd : r ∈ Finset.univ.erase d :=
    Finset.mem_erase.2 ⟨Ne.symm hdr, Finset.mem_univ r⟩
  have hmusplitA : mu v A = rowWeight v m (rowSum A d) (nnzRow (A d))
      + (rowWeight v m (rowSum A r) (nnzRow (A r))
        + ∑ i in (Finset.univ.erase d).erase r,
            rowWeight v m (rowSum A i) (nnzRow (A i))) := by
    unfold mu
    rw [← Finset.add_sum_erase Finset.univ _ (Finset.mem_univ d),
      ← Finset.add_sum_erase (Finset.univ.erase d) _ hrd]
  have hmusplitB : mu v B = rowWeight v m (rowSum B d) (nnzRow (B d))
      + (rowWeight v m (rowSum B r) (nnzRow (B r))
        + ∑ i in (Finset.univ.erase d).erase r,
            rowWeight v m (rowSum B i) (nnzRow (B i))) := by
    unfold mu
    rw [← Finset.add_sum_erase Finset.univ _ (Finset.mem_univ d),
      ← Finset.add_sum_erase (Finset.univ.erase d) _ hrd]
  have hrest : ∑ i in (Finset.univ.erase d).erase r,
      rowWeight v m (rowSum B i) (nnzRow (B i))
      = ∑ i in (Finset.univ.erase d).erase r,
          rowWeight v m (rowSum A i) (nnzRow (A i)) := by
    refine Finset.sum_congr rfl fun i hi => ?_
    rcases Finset.mem_erase.1 hi with ⟨hir, hi2⟩
    rcases Finset.mem_erase.1 hi2 with ⟨hid, _⟩
    exact hwBo i hid hir
  have hmu : mu v B < mu v A := by
    rw [hmusplitA, hmusplitB, hrest]
    omega
  exact ⟨hmu, hBnn, hsum, hovB⟩

/-- The guarded repair step under the reachable hypotheses: measure and
overflow decrease strictly, entries stay nonnegative, total load is
conserved. -/
lemma repairStep_spec {p m : ℕ} (v : ℚ) (A : Fin p → Fin m → ℚ)
    (hA : ∀ i j2, 0 ≤ A i j2) (hv : 0 ≤ v)
    (htot : ∑ i, rowSum A i ≤ (p : ℚ) * v)
    (hcond : anyOverloaded v A) :
    mu v (repairStep v A) < mu v A
    ∧ (∀ i j2, 0 ≤ repairStep v A i j2)
    ∧ (∑ i, rowSum (repairStep v A) i = ∑ i, rowSum A i)
    ∧ overflow v (repairStep v A) < overflow v A := by
  have hp : 0 < p := hcond.elim fun i _ => i.pos
  have hm : 0 < m := by
    rcases Nat.eq_zero_or_pos m with hm0 | hm
    · exfalso
      obtain ⟨i, hi⟩ := hcond
      subst hm0
      have h0 : rowSum A i = 0 := by simp [rowSum]
      rw [h0] at hi
      linarith
    · exact hm
  obtain ⟨i0, hi0⟩ := hcond
  have hstep : repairStep v A
      = updEntry (updEntry A (argmaxIdx (rowSum A) hp)
            (argmaxIdx (A (argmaxIdx (rowSum A) hp)) hm)
            (A (argmaxIdx (rowSum A) hp)
                (argmaxIdx (A (argmaxIdx (rowSum A) hp)) hm)
              - min (A (argmaxIdx (rowSum A) hp)
                  (argmaxIdx (A (argmaxIdx (rowSum A) hp)) hm))
                  (rowSum A (argmaxIdx (rowSum A) hp) - v)))
          (argminIdx (rowSum A) hp)
          (argmaxIdx (A (argmaxIdx (rowSum A) hp)) hm)
          (updEntry A (argmaxIdx (rowSum A) hp)
              (argmaxIdx (A (argmaxIdx (rowSum A) hp)) hm)
              (A (argmaxIdx (rowSum A) hp)
                  (argmaxIdx (A (argmaxIdx (rowSum A) hp)) hm)
                - min (A (argmaxIdx (rowSum A) hp)
                    (argmaxIdx (A (argmaxIdx (rowSum A) hp)) hm))
                    (rowSum A (argmaxIdx (rowSum A) hp) - v))
            (argminIdx (rowSum A) hp)
            (argmaxIdx (A (argmaxIdx (rowSum A) hp)) hm)
            + min (A (argmaxIdx (rowSum A) hp)
                (argmaxIdx (A (argmaxIdx (rowSum A) hp)) hm))
                (rowSum A (argmaxIdx (rowSum A) hp) - v)) := by
    rw [repairStep, dif_pos ⟨⟨i0, hi0⟩, hm⟩]
    rfl
  exact move_decrease v A (argmaxIdx (rowSum A) hp) (argminIdx (rowSum A) hp)
    (argmaxIdx (A (argmaxIdx (rowSum A) hp)) hm) _ hA hv
    (argmaxIdx_spec (rowSum A) hp) (argminIdx_spec (rowSum A) hp)
    (argmaxIdx_spec (A (argmaxIdx (rowSum A) hp)) hm) rfl htot
    (lt_of_lt_of_le hi0 (argmaxIdx_spec (rowSum A) hp i0))
    (repairStep v A) hstep

/-- With fuel exceeding the measure, the repair loop reaches a state with
no overloaded truck, and the total load is conserved along the way. -/
lemma repairAux_correct {p m : ℕ} (v : ℚ) (hv : 0 ≤ v) :
    ∀ (fuel : ℕ) (A : Fin p → Fin m → ℚ),
      mu v A < fuel → (∀ i j2, 0 ≤ A i j2) →
      (∑ i, rowSum A i ≤ (p : ℚ) * v) →
      ¬ anyOverloaded v (repairAux v fuel A) := by
  intro fuel
  induction fuel with
  | zero => intro A hmu _ _; omega
  | succ f ih =>
      intro A hmu hA htot
      rw [repairAux]
      by_cases hcond : anyOverloaded v A
      · rw [if_pos hcond]
        obtain ⟨hmu2, hA2, htot2, _⟩ := repairStep_spec v A hA hv htot hcond
        exact ih (repairStep v A) (by omega) hA2 (by rw [htot2]; exact htot)
      · rw [if_neg hcond]
        exact hcond

/-- Error kinds of the generator: infeasibleInstance embeds the ValueError
raised on total goods exceeding total capacity, and
generationInvariantViolation embeds the RuntimeError raised when the final
validation fails. -/
inductive GenError where
  | infeasibleInstance
  | generationInvariantViolation
deriving DecidableEq

/-- Column normalization of the random matrix drawn by np.random.rand:
allocation = R / R.sum(axis=0) * goods_amounts.  Division by an exactly
zero column sum gives nan in numpy and fails the final validation; in ℚ it
gives a zero column, which fails the same validation. -/
def normalizeAllocation {p m : ℕ} (R : Fin p → Fin m → ℚ)
    (t : Fin m → ℚ) : Fin p → Fin m → ℚ :=
  fun i j => R i j / (∑ i2, R i2 j) * t j

/-- model.py generate_random_goods_allocation: raise infeasibleInstance
when trucks_number * truck_capacity < goods_amounts.sum(), before the
random matrix R is used at all; otherwise normalize the random matrix per
column and run the capacity-repair loop. -/
def generate_random_goods_allocation {n m p : ℕ} (st : Settings n m p)
    (R : Fin p → Fin m → ℚ) : Except GenError (Fin p → Fin m → ℚ) :=
  if (p : ℚ) * st.truckCapacity < ∑ j, st.goodsAmounts j then
    Except.error GenError.infeasibleInstance
  else
    Except.ok (repairLoop st.truckCapacity (normalizeAllocation R st.goodsAmounts))

/-- model.py generate_random_solution: combine the random truck allocation
(the parameter trucksR stands for the output of
generate_random_truck_allocation, a uniform draw of crossing indices) with
the generated goods allocation and validate, raising
generationInvariantViolation when validation fails. -/
def generate_random_solution {n m p : ℕ} (st : Settings n m p)
    (trucksR : Fin p → Fin n) (R : Fin p → Fin m → ℚ) :
    Except GenError (Solution n m p) :=
  match generate_random_goods_allocation st R with
  | Except.error e => Except.error e
  | Except.ok g =>
      if validate_solution ⟨trucksR, g⟩ st then Except.ok ⟨trucksR, g⟩
      else Except.error GenError.generationInvariantViolation

lemma normalize_nonneg {p m : ℕ} (R : Fin p → Fin m → ℚ) (t : Fin m → ℚ)
    (hR : ∀ i j, 0 ≤ R i j) (ht : ∀ j, 0 ≤ t j) :
    ∀ i j, 0 ≤ normalizeAllocation R t i j := by
  intro i j
  unfold normalizeAllocation
  have hc : 0 ≤ ∑ i2, R i2 j := Finset.sum_nonneg fun i2 _ => hR i2 j
  exact mul_nonneg (div_nonneg (hR i j) hc) (ht j)

lemma normalize_colSum {p m : ℕ} (R : Fin p → Fin m → ℚ) (t : Fin m → ℚ)
    (hcol : ∀ j, 0 < ∑ i, R i j) :
    ∀ j, colSum (normalizeAllocation R t) j = t j := by
  intro j
  unfold colSum normalizeAllocation
  rw [← Finset.sum_mul, ← Finset.sum_div, div_self (ne_of_gt (hcol j)), one_mul]

lemma sum_rowSum_eq_sum_colSum {p m : ℕ} (A : Fin p → Fin m → ℚ) :
    ∑ i, rowSum A i = ∑ j, colSum A j := by
  unfold rowSum colSum
  exact Finset.sum_comm

/-- C3: for every feasible instance of the data model (nonnegative random
matrix with positive column sums, nonnegative goods amounts, nonnegative
capacity, total goods at most total capacity), the capacity-repair loop of
random goods-allocation generation terminates: the state repairLoop reaches
has no truck over capacity; moreover at every reachable loop state the
total capacity overflow strictly decreases with each step, and overflow is
bounded below by zero everywhere. -/
theorem repair_loop_terminates {n m p : ℕ} (st : Settings n m p)
    (R : Fin p → Fin m → ℚ)
    (hR : ∀ i j, 0 ≤ R i j)
    (hcol : ∀ j, 0 < ∑ i, R i j)
    (ht : ∀ j, 0 ≤ st.goodsAmounts j)
    (hv : 0 ≤ st.truckCapacity)
    (hfeas : ∑ j, st.goodsAmounts j ≤ (p : ℚ) * st.truckCapacity) :
    ¬ anyOverloaded st.truckCapacity
        (repairLoop st.truckCapacity (normalizeAllocation R st.goodsAmounts))
    ∧ (∀ B : Fin p → Fin m → ℚ, (∀ i j2, 0 ≤ B i j2) →
        (∑ i, rowSum B i ≤ (p : ℚ) * st.truckCapacity) →
        anyOverloaded st.truckCapacity B →
        overflow st.truckCapacity (repairStep st.truckCapacity B)
          < overflow st.truckCapacity B)
    ∧ (∀ B : Fin p → Fin m → ℚ, 0 ≤ overflow st.truckCapacity B) := by
  have hA0nn : ∀ i j, 0 ≤ normalizeAllocation R st.goodsAmounts i j :=
    normalize_nonneg R st.goodsAmounts hR ht
  have hA0tot : ∑ i, rowSum (normalizeAllocation R st.goodsAmounts) i
      ≤ (p : ℚ) * st.truckCapacity := by
    rw [sum_rowSum_eq_sum_colSum,
      Finset.sum_congr rfl fun j _ => normalize_colSum R st.goodsAmounts hcol j]
    exact hfeas
  refine ⟨?_, ?_, ?_⟩
  · exact repairAux_correct st.truckCapacity hv
      (mu st.truckCapacity (normalizeAllocation R st.goodsAmounts) + 1)
      (normalizeAllocation R st.goodsAmounts) (by omega) hA0nn hA0tot
  · intro B hBnn hBtot hBcond
    exact (repairStep_spec st.truckCapacity B hBnn hv hBtot hBcond).2.2.2
  · intro B
    exact Finset.sum_nonneg fun i _ => le_max_right _ _

/-- Concrete settings for the repair witness: two trucks of capacity 10 and
15 units of a single goods type. -/
def settingsRepair : Settings 1 1 2 :=
  ⟨10, 0, fun _ _ => 0, fun _ => 0, fun _ => 15⟩

/-- Concrete random matrix for the repair witness: the normalized
allocation puts 12 on truck 0 and 3 on truck 1, so the repair loop must
run. -/
def rRepair : Fin 2 → Fin 1 → ℚ := fun i _ => if i = 0 then 4 else 1

/-- Witness for C3: the hypotheses hold at a concrete feasible instance and
the theorem applies there. -/
theorem repair_loop_terminates_witness :
    ((∀ i j, 0 ≤ rRepair i j)
      ∧ (∀ j, 0 < ∑ i, rRepair i j)
      ∧ (∀ j, 0 ≤ settingsRepair.goodsAmounts j)
      ∧ 0 ≤ settingsRepair.truckCapacity
      ∧ ∑ j, settingsRepair.goodsAmounts j
          ≤ ((2 : ℕ) : ℚ) * settingsRepair.truckCapacity)
    ∧ ¬ anyOverloaded settingsRepair.truckCapacity
        (repairLoop settingsRepair.truckCapacity
          (normalizeAllocation rRepair settingsRepair.goodsAmounts)) := by
  have h1 : ∀ i j, (0 : ℚ) ≤ rRepair i j := by
    intro i j
    fin_cases i <;> norm_num [rRepair]
  have h2 : ∀ j, (0 : ℚ) < ∑ i, rRepair i j := by
    intro j
    norm_num [rRepair, Fin.sum_univ_two]
  have h3 : ∀ j, (0 : ℚ) ≤ settingsRepair.goodsAmounts j := by
    intro j
    norm_num [settingsRepair]
  have h4 : (0 : ℚ) ≤ settingsRepair.truckCapacity := by norm_num [settingsRepair]
  have h5 : ∑ j, settingsRepair.goodsAmounts j
      ≤ ((2 : ℕ) : ℚ) * settingsRepair.truckCapacity := by
    norm_num [settingsRepair, Fin.sum_univ_one]
  exact ⟨⟨h1, h2, h3, h4, h5⟩,
    (repair_loop_terminates settingsRepair rRepair h1 h2 h3 h4 h5).1⟩

/-- C1: for every settings and every random outcome, generate_random_solution
raises infeasibleInstance exactly when
trucks_number * truck_capacity < sum(goods_amounts) (independently of all
randomness, so before any random allocation content matters); every solution
it returns passes validation, hence satisfies I1 and I2 within the allclose
tolerance; and when the built solution fails validation in the feasible case
it raises generationInvariantViolation instead of returning it. -/
theorem generate_random_solution_spec {n m p : ℕ} (st : Settings n m p)
    (trucksR : Fin p → Fin n) (R : Fin p → Fin m → ℚ) :
    (generate_random_solution st trucksR R
        = Except.error GenError.infeasibleInstance
      ↔ (p : ℚ) * st.truckCapacity < ∑ j, st.goodsAmounts j)
    ∧ (∀ sol, generate_random_solution st trucksR R = Except.ok sol →
        (∀ i, rowSum sol.goodsAllocation i ≤ st.truckCapacity)
        ∧ ∀ j, ratClose (colSum sol.goodsAllocation j) (st.goodsAmounts j))
    ∧ (¬ (p : ℚ) * st.truckCapacity < ∑ j, st.goodsAmounts j →
        ¬ validate_solution
            ⟨trucksR, repairLoop st.truckCapacity
              (normalizeAllocation R st.goodsAmounts)⟩ st →
        generate_random_solution st trucksR R
          = Except.error GenError.generationInvariantViolation) := by
  by_cases hinf : (p : ℚ) * st.truckCapacity < ∑ j, st.goodsAmounts j
  · have hgen : generate_random_solution st trucksR R
        = Except.error GenError.infeasibleInstance := by
      unfold generate_random_solution generate_random_goods_allocation
      rw [if_pos hinf]
    refine ⟨⟨fun _ => hinf, fun _ => hgen⟩, ?_, fun hni _ => absurd hinf hni⟩
    intro sol hsol
    rw [hgen] at hsol
    exact absurd hsol (by simp)
  · have hgoods : generate_random_goods_allocation st R
        = Except.ok (repairLoop st.truckCapacity
            (normalizeAllocation R st.goodsAmounts)) := by
      unfold generate_random_goods_allocation
      rw [if_neg hinf]
    by_cases hval : validate_solution
        ⟨trucksR, repairLoop st.truckCapacity
          (normalizeAllocation R st.goodsAmounts)⟩ st
    · have hgen : generate_random_solution st trucksR R
          = Except.ok ⟨trucksR, repairLoop st.truckCapacity
              (normalizeAllocation R st.goodsAmounts)⟩ := by
        unfold generate_random_solution
        rw [hgoods]
        simp only [if_pos hval]
      refine ⟨⟨fun h => ?_, fun h => absurd h hinf⟩, ?_, fun _ h => absurd hval h⟩
      · rw [hgen] at h
        exact absurd h (by simp)
      · intro sol hsol
        rw [hgen] at hsol
        have hsol2 : sol = ⟨trucksR, repairLoop st.truckCapacity
            (normalizeAllocation R st.goodsAmounts)⟩ := by
          injection hsol with h2
          exact h2.symm
        subst hsol2
        exact ⟨hval.1, hval.2⟩
    · have hgen : generate_random_solution st trucksR R
          = Except.error GenError.generationInvariantViolation := by
        unfold generate_random_solution
        rw [hgoods]
        simp only [if_neg hval]
      refine ⟨⟨fun h => ?_, fun h => absurd h hinf⟩, ?_, fun _ _ => hgen⟩
      · rw [hgen] at h
        exact absurd h (by simp)
      · intro sol hsol
        rw [hgen] at hsol
        exact absurd hsol (by simp)

/-- Concrete infeasible settings: one truck of capacity 1 and 3 units of a
single goods type. -/
def settingsInfeasible : Settings 1 1 1 :=
  ⟨1, 0, fun _ _ => 0, fun _ => 0, fun _ => 3⟩

/-- Witness for C1: at a concrete infeasible instance the generator raises
infeasibleInstance, for an arbitrary concrete random outcome. -/
theorem generate_random_solution_spec_witness :
    (((1 : ℕ) : ℚ) * settingsInfeasible.truckCapacity
        < ∑ j, settingsInfeasible.goodsAmounts j)
    ∧ generate_random_solution settingsInfeasible (fun _ => 0) (fun _ _ => 1)
        = Except.error GenError.infeasibleInstance := by
  have h : ((1 : ℕ) : ℚ) * settingsInfeasible.truckCapacity
      < ∑ j, settingsInfeasible.goodsAmounts j := by
    norm_num [settingsInfeasible, Fin.sum_univ_one]
  exact ⟨h, (generate_random_solution_spec settingsInfeasible
    (fun _ => 0) (fun _ _ => 1)).1.mpr h⟩

end GoodsDuty
